import Mathlib

/-!
Verification of the dyff report-filter and neat-renderer components.

The Go code of the repository is shallowly embedded below. Functions of the
repository itself (Report.filter, Report.Filter, Report.Exclude,
Report.FilterRegexp, Report.ExcludeRegexp, Report.IgnoreValueChanges, and the
neat output processor) are translated from the source. External collaborators
(ytbx paths, yaml nodes, Go regexp, the bunt colorizer, and the yaml
marshaller) are not part of the repository source and are modelled from the
specification, each marked as such in its doc comment.
-/

namespace Dyff

/-- Modelled from the spec: one element of a ytbx path, a field name or a
sequence index (external ytbx.Path element type). -/
inductive YPathElem where
  | name (s : String)
  | idx (n : Nat)
deriving DecidableEq, Repr

/-- Modelled from the spec: a ytbx path, an ordered sequence of path
elements; the Go code passes these around as possibly-nil pointers, embedded
here as Option YPath. -/
structure YPath where
  elements : List YPathElem
deriving DecidableEq, Repr

/-- Modelled from the spec: the canonical dot-style string form of a path,
dot-separated field names with bracketed sequence indices, e.g. a.b[2].c.
The filter code compares paths only through this string form. -/
def YPath.str (p : YPath) : String :=
  p.elements.foldl
    (fun acc e =>
      match e with
      | YPathElem.name s => if acc = "" then s else acc ++ "." ++ s
      | YPathElem.idx n => acc ++ "[" ++ toString n ++ "]")
    ""

/-- Modelled from the spec: ytbx.AppendPath concatenates two paths. -/
def appendPath (p q : YPath) : YPath :=
  YPath.mk (p.elements ++ q.elements)

/-- Modelled from the spec: a yaml.Node value carried by a diff detail, a
tree of mappings (ordered key/value pairs), sequences and scalars. -/
inductive YNode where
  | scalar (text : String)
  | mapping (entries : List (String × YNode))
  | sequence (elems : List YNode)

/-- Splitting a character list on a separator character, the same way Go's
strings.Split and Lean's String.splitOn behave on single-character
separators; defined structurally so that proofs can evaluate it. -/
def splitOnChar (c : Char) : List Char → List (List Char)
  | [] => [[]]
  | x :: rest =>
    let r := splitOnChar c rest
    if x = c then [] :: r
    else
      match r with
      | [] => [[x]]
      | seg :: segs => (x :: seg) :: segs

/-- Decimal reading of a non-empty all-digit character list. -/
def charsToNat? (cs : List Char) : Option Nat :=
  if cs.isEmpty then none
  else if cs.all Char.isDigit then
    some (cs.foldl (fun acc c => acc * 10 + (c.toNat - 48)) 0)
  else none

/-- One bracketed index chunk of a path segment: the text after a `[`,
which must be digits closed by `]`. -/
def parseIdxPart (part : List Char) : Option YPathElem :=
  match part.reverse with
  | ']' :: digitsRev => (charsToNat? digitsRev.reverse).map YPathElem.idx
  | _ => none

/-- Modelled from the spec: parsing of one dot-separated segment of a path
string, a non-empty bracket-free field name followed by zero or more
bracketed decimal indices; anything else is malformed. -/
def parseSegment (seg : List Char) : Option (List YPathElem) :=
  match splitOnChar '[' seg with
  | [] => none
  | nm :: idxParts =>
    if nm.isEmpty then none
    else if nm.any (fun c => c = ']') then none
    else
      match idxParts.mapM parseIdxPart with
      | some is => some (YPathElem.name (String.mk nm) :: is)
      | none => none

/-- Modelled from the spec: ytbx.ParsePathStringUnsafe, parsing the
dot-style path grammar `a.b[2].c`; returns none on a malformed string. -/
def parsePathString (s : String) : Option YPath :=
  match (splitOnChar '.' s.data).mapM parseSegment with
  | some segs => some (YPath.mk segs.flatten)
  | none => none

mutual

/-- Modelled from the spec: ytbx.ListPathsInNode enumerates every structural
sub-path inside a value, mapping keys and sequence indices, recursively; a
scalar contributes no sub-paths. The Go utility can also report an error,
which the filter treats as no additional sub-paths (spec 4.2); the model's
enumeration is total, so the filter's err == nil branch is always taken. -/
def listPathsInNode : YNode → List YPath
  | YNode.scalar _ => []
  | YNode.mapping entries => listPathsInEntries entries
  | YNode.sequence elems => listPathsInElems 0 elems

/-- Sub-path enumeration over the entries of a mapping node. -/
def listPathsInEntries : List (String × YNode) → List YPath
  | [] => []
  | (k, v) :: rest =>
    (YPath.mk [YPathElem.name k] ::
        (listPathsInNode v).map (fun sp => YPath.mk (YPathElem.name k :: sp.elements)))
      ++ listPathsInEntries rest

/-- Sub-path enumeration over the elements of a sequence node, indexed from
the given position. -/
def listPathsInElems (i : Nat) : List YNode → List YPath
  | [] => []
  | v :: rest =>
    (YPath.mk [YPathElem.idx i] ::
        (listPathsInNode v).map (fun sp => YPath.mk (YPathElem.idx i :: sp.elements)))
      ++ listPathsInElems (i + 1) rest

end

/-- Modelled from the spec: the Kind enum of a Detail. -/
inductive Kind where
  | addition
  | removal
  | modification
  | orderchange
deriving DecidableEq, Repr

/-- Modelled from the spec: a Detail, a Kind plus optional From and To
values (possibly-nil yaml.Node pointers in Go). -/
structure Detail where
  Kind : Kind
  From : Option YNode
  To : Option YNode

/-- Modelled from the spec: a Diff, a possibly-nil Path plus an ordered list
of Details. -/
structure Diff where
  Path : Option YPath
  Details : List Detail

/-- Modelled from the spec: a Report, opaque From and To document
identifiers plus an ordered list of Diffs. -/
structure Report where
  From : String
  To : String
  Diffs : List Diff

/-- Innermost loop of Report.filter (source part_000 lines 26-31): for every
sub-path found inside a detail node, the diff's path is dereferenced
(AppendPath takes the path by value, so a nil diff path is a nil pointer
dereference, embedded as none) and the concatenated path is tested; a
failing test clears the include flag. -/
def checkSubPaths (hasPath : Option YPath → Bool) (dpath : Option YPath)
    (includeDiff : Bool) : List YPath → Option Bool
  | [] => some includeDiff
  | subPath :: rest =>
    match dpath with
    | none => none
    | some p =>
      let testPath := appendPath p subPath
      let includeDiff := if !hasPath (some testPath) then false else includeDiff
      checkSubPaths hasPath dpath includeDiff rest

/-- One diff node of a detail (source part_000 lines 23-33): a nil node is
skipped; otherwise its sub-paths are enumerated and checked. -/
def checkNode (hasPath : Option YPath → Bool) (dpath : Option YPath)
    (includeDiff : Bool) : Option YNode → Option Bool
  | none => some includeDiff
  | some n => checkSubPaths hasPath dpath includeDiff (listPathsInNode n)

/-- One detail of a diff (source part_000 lines 21-35): its From node then
its To node are checked. -/
def checkDetail (hasPath : Option YPath → Bool) (dpath : Option YPath)
    (includeDiff : Bool) (d : Detail) : Option Bool :=
  match checkNode hasPath dpath includeDiff d.From with
  | none => none
  | some includeDiff => checkNode hasPath dpath includeDiff d.To

/-- The details loop of Report.filter (source part_000 lines 21-35). -/
def checkDetails (hasPath : Option YPath → Bool) (dpath : Option YPath)
    (includeDiff : Bool) : List Detail → Option Bool
  | [] => some includeDiff
  | d :: rest =>
    match checkDetail hasPath dpath includeDiff d with
    | none => none
    | some includeDiff => checkDetails hasPath dpath includeDiff rest

/-- The diff loop of Report.filter (source part_000 lines 16-39). The
includeDiff accumulator is threaded through the whole loop because the Go
code declares it once before the loop: it is never reset per diff. The
result is none when the loop dereferences a nil diff path. -/
def filterDiffs (hasPath : Option YPath → Bool) (includeDiff : Bool) :
    List Diff → Option (List Diff)
  | [] => some []
  | diff :: rest =>
    let includeDiff := if !hasPath diff.Path then false else includeDiff
    match checkDetails hasPath diff.Path includeDiff diff.Details with
    | none => none
    | some includeDiff =>
      match filterDiffs hasPath includeDiff rest with
      | none => none
      | some ds => some (if includeDiff then diff :: ds else ds)

/-- Report.filter (source part_000 lines 10-42): builds a new report with
the same From and To and the diffs that survive all predicate checks; none
embeds the run-time fault of dereferencing a nil diff path. -/
def Report.filter (r : Report) (hasPath : Option YPath → Bool) : Option Report :=
  (filterDiffs hasPath true r.Diffs).map
    (fun ds => { From := r.From, To := r.To, Diffs := ds })

/-- The per-path-string condition of the Filter predicate (source part_000
lines 51-56): the string parses, the tested path is non-nil, and the
canonical strings are equal. -/
def pathEqCond (filterPath : Option YPath) (pathString : String) : Bool :=
  match parsePathString pathString with
  | some path =>
    match filterPath with
    | some fp => path.str == fp.str
    | none => false
  | none => false

/-- The predicate built by Report.Filter (source part_000 lines 50-59):
true iff some argument string satisfies the condition. -/
def filterMatch (paths : List String) (filterPath : Option YPath) : Bool :=
  paths.any (pathEqCond filterPath)

/-- The predicate built by Report.Exclude (source part_000 lines 68-77):
false as soon as some argument string satisfies the condition, true
otherwise. -/
def excludeMatch (paths : List String) (filterPath : Option YPath) : Bool :=
  !(paths.any (pathEqCond filterPath))

/-- Report.Filter (source part_000 lines 45-60). -/
def Report.Filter (r : Report) (paths : List String) : Option Report :=
  if paths.length = 0 then some r
  else r.filter (filterMatch paths)

/-- Report.Exclude (source part_000 lines 63-78). -/
def Report.Exclude (r : Report) (paths : List String) : Option Report :=
  if paths.length = 0 then some r
  else r.filter (excludeMatch paths)

/-- Modelled from the spec: balanced-parentheses check standing in for Go's
regexp syntax validation, whose details are external to this repository; all
that matters here is that some strings fail to compile. -/
def parenBalance : List Char → Nat → Bool
  | [], depth => depth == 0
  | c :: rest, depth =>
    if c = '(' then parenBalance rest (depth + 1)
    else if c = ')' then
      match depth with
      | 0 => false
      | d + 1 => parenBalance rest d
    else parenBalance rest depth

/-- Modelled from the spec: validity of a regular expression pattern. -/
def validRegexp (s : String) : Bool :=
  parenBalance s.toList 0

/-- Modelled from the spec: a compiled Go regular expression. -/
structure Regexp where
  pat : String
deriving DecidableEq, Repr

/-- Modelled from the spec: Go regexp compilation; regexp.MustCompile panics
on an invalid pattern, embedded as none. -/
def compileRegexp (s : String) : Option Regexp :=
  if validRegexp s then some (Regexp.mk s) else none

/-- Prefix test on character lists, used by the substring test below. -/
def listPrefixOf : List Char → List Char → Bool
  | [], _ => true
  | _ :: _, [] => false
  | a :: as, b :: bs => a = b && listPrefixOf as bs

/-- Substring test on character lists. -/
def containsSub (pat : List Char) : List Char → Bool
  | [] => pat.isEmpty
  | b :: bs => listPrefixOf pat (b :: bs) || containsSub pat bs

/-- Modelled from the spec: unanchored matching of a compiled pattern
against a string; literal-substring semantics are enough here since no claim
depends on the regex language itself. -/
def Regexp.matchString (re : Regexp) (s : String) : Bool :=
  containsSub re.pat.data s.data

/-- The compilation loop of FilterRegexp and ExcludeRegexp (source part_000
lines 86-89 and 107-110): every pattern is compiled with MustCompile before
the filter runs; the first invalid pattern aborts the whole call. -/
def compileAll : List String → Option (List Regexp)
  | [] => some []
  | p :: rest =>
    match compileRegexp p with
    | none => none
    | some re =>
      match compileAll rest with
      | none => none
      | some res => some (re :: res)

/-- The per-regexp condition of the regexp predicates (source part_000 lines
93 and 114): the tested path is non-nil and its canonical string matches. -/
def regexpCond (filterPath : Option YPath) (re : Regexp) : Bool :=
  match filterPath with
  | some fp => re.matchString fp.str
  | none => false

/-- The predicate built by Report.FilterRegexp (source part_000 lines
91-98). -/
def filterRegexpMatch (regexps : List Regexp) (filterPath : Option YPath) : Bool :=
  regexps.any (regexpCond filterPath)

/-- The predicate built by Report.ExcludeRegexp (source part_000 lines
112-119). -/
def excludeRegexpMatch (regexps : List Regexp) (filterPath : Option YPath) : Bool :=
  !(regexps.any (regexpCond filterPath))

/-- Report.FilterRegexp (source part_000 lines 81-99); none embeds either a
MustCompile panic or the filter's nil-path fault. -/
def Report.FilterRegexp (r : Report) (pattern : List String) : Option Report :=
  if pattern.length = 0 then some r
  else
    match compileAll pattern with
    | none => none
    | some regexps => r.filter (filterRegexpMatch regexps)

/-- Report.ExcludeRegexp (source part_000 lines 102-120). -/
def Report.ExcludeRegexp (r : Report) (pattern : List String) : Option Report :=
  if pattern.length = 0 then some r
  else
    match compileAll pattern with
    | none => none
    | some regexps => r.filter (excludeRegexpMatch regexps)

/-- Report.IgnoreValueChanges (source part_000 lines 122-143): keeps From
and To and exactly the diffs none of whose details has Kind MODIFICATION;
List.filter embeds the append loop, preserving order. -/
def Report.IgnoreValueChanges (r : Report) : Report :=
  { From := r.From, To := r.To,
    Diffs := r.Diffs.filter
      (fun diff => !(diff.Details.any (fun detail => detail.Kind == Kind.modification))) }

/-- Modelled from the spec: the closed tagged union over which the neat
renderer dispatches (spec section 9), a mapping of ordered key/value pairs,
a sequence, or a scalar. Scalars carry the Go runtime types the renderer
distinguishes; a float is represented by its serialized text, since the
floating-point value itself only ever reaches the output through the
marshaller. -/
inductive ScalarV where
  | nullV
  | boolV (b : Bool)
  | intV (n : Int)
  | floatV (text : String)
  | strV (s : String)
deriving DecidableEq, Repr

/-- Modelled from the spec: a hierarchical value fed to the neat renderer
(spec section 3 Value and section 9's closed three-case union; Go dispatches
on yaml.MapSlice, a generic slice, and a scalar default). -/
inductive NeatValue where
  | mapSlice (items : List (String × NeatValue))
  | slice (items : List NeatValue)
  | scalar (s : ScalarV)

/-- Modelled from the spec: bunt.Colorize, the external primitive applying a
color value to a text; embedded as an injective tagging so that theorems can
speak about which color each piece of output received. -/
def buntColorize (text : String) (color : Nat) : String :=
  "<" ++ toString color ++ ">" ++ text ++ "</>"

/-- Modelled from the spec: bunt.Style with the Bold emphasis. -/
def buntStyle (text : String) : String :=
  "<b>" ++ text ++ "</b>"

/-- DefaultColorSchema (neat.go lines 35-45); the bunt color constants are
external, modelled as distinct numbers, keeping the one numeric value the
source spells out (0x00242424 for indentLineColor). -/
def DefaultColorSchema : List (String × Nat) :=
  [("keyColor", 1),
   ("indentLineColor", 0x00242424),
   ("scalarDefaultColor", 2),
   ("boolColor", 3),
   ("floatColor", 4),
   ("intColor", 5),
   ("multiLineTextColor", 6),
   ("nullColor", 7),
   ("emptyStructures", 8)]

/-- OutputProcessor (neat.go lines 49-55); the data buffer and writer are
embedded by letting every rendering function return the string it writes,
and the Go color-schema map pointer becomes an optional association list. -/
structure OutputProcessor where
  colorSchema : Option (List (String × Nat))
  useIndentLines : Bool
  boldKeys : Bool

/-- OutputProcessor.colorize (neat.go lines 90-98). -/
def OutputProcessor.colorize (p : OutputProcessor) (text colorName : String) : String :=
  match p.colorSchema with
  | some schema =>
    match schema.lookup colorName with
    | some value => buntColorize text value
    | none => text
  | none => text

/-- OutputProcessor.prefixAdd (neat.go lines 245-251). -/
def OutputProcessor.prefixAdd (p : OutputProcessor) : String :=
  if p.useIndentLines then p.colorize "│ " "indentLineColor"
  else p.colorize "  " "indentLineColor"

/-- Modelled from the spec: serialization of one scalar by the external yaml
marshaller, the value's canonical textual form followed by a newline (spec
section 4.4); the marshaller cannot fail on these scalar types, so the Go
error branch of neatScalar is dead in the model. -/
def yamlMarshal : ScalarV → String
  | ScalarV.nullV => "null\n"
  | ScalarV.boolV true => "true\n"
  | ScalarV.boolV false => "false\n"
  | ScalarV.intV n => toString n ++ "\n"
  | ScalarV.floatV text => text ++ "\n"
  | ScalarV.strV s => s ++ "\n"

/-- Whitespace recognized by Go's strings.TrimSpace on the ASCII range. -/
def isSpaceChar (c : Char) : Bool :=
  c = ' ' || c = '\t' || c = '\n' || c = '\r'

/-- Leading-whitespace removal on a character list. -/
def dropLeadingSpaces : List Char → List Char
  | [] => []
  | c :: rest => if isSpaceChar c then dropLeadingSpaces rest else c :: rest

/-- Modelled from the spec: Go's strings.TrimSpace, removal of leading and
trailing whitespace. -/
def trimSpace (s : String) : String :=
  String.mk ((dropLeadingSpaces (dropLeadingSpaces s.data.reverse).reverse))

/-- Modelled from the spec: the line splitting of neat.go line 227,
strings.Split(strings.TrimSpace(data), newline). -/
def splitTextLines (s : String) : List String :=
  (splitOnChar '\n' (trimSpace s).data).map String.mk

/-- Key rendering inside neatMapSlice (neat.go lines 132-137): the key text,
a colon, optional bold emphasis, and the key color. -/
def OutputProcessor.keyOutput (p : OutputProcessor) (k : String) : String :=
  let keyString := k ++ ":"
  let keyString := if p.boldKeys then buntStyle keyString else keyString
  p.colorize keyString "keyColor"

/-- The tail of the line loop of neatScalar (neat.go lines 233-240): each
line after the first is preceded by the prefix, colorized, and followed by a
newline. -/
def scalarLinesTail (p : OutputProcessor) (pfx color : String) : List String → String
  | [] => ""
  | line :: rest => pfx ++ p.colorize line color ++ "\n" ++ scalarLinesTail p pfx color rest

/-- The line loop of neatScalar (neat.go lines 233-240): the first line is
not preceded by the prefix. -/
def scalarLines (p : OutputProcessor) (pfx color : String) : List String → String
  | [] => ""
  | line :: rest => p.colorize line color ++ "\n" ++ scalarLinesTail p pfx color rest

/-- OutputProcessor.neatScalar (neat.go lines 200-243). The
skipIndentOnFirstLine parameter exists in the Go signature but is never read
by the body. -/
def OutputProcessor.neatScalar (p : OutputProcessor) (pfx : String)
    (skipIndentOnFirstLine : Bool) (obj : ScalarV) : String :=
  match obj with
  | ScalarV.nullV => p.colorize "null" "nullColor" ++ "\n"
  | _ =>
    let data := yamlMarshal obj
    let color :=
      match obj with
      | ScalarV.boolV _ => "boolColor"
      | ScalarV.floatV _ => "floatColor"
      | ScalarV.intV _ => "intColor"
      | _ => "scalarDefaultColor"
    let lines := splitTextLines data
    let color := if lines.length > 1 then "multiLineTextColor" else color
    scalarLines p pfx color lines

mutual

/-- OutputProcessor.neat (neat.go lines 100-124): dispatch on the runtime
shape of the value. -/
def OutputProcessor.neat (p : OutputProcessor) (pfx : String)
    (skipIndentOnFirstLine : Bool) : NeatValue → String
  | NeatValue.mapSlice items => p.neatMapSlice pfx skipIndentOnFirstLine items
  | NeatValue.slice items => p.neatSlice pfx skipIndentOnFirstLine items
  | NeatValue.scalar s => p.neatScalar pfx skipIndentOnFirstLine s

/-- OutputProcessor.neatMapSlice (neat.go lines 126-174): per key/value
pair, the prefix (suppressed on the first pair when skipIndentOnFirstLine),
the colorized key and colon, then the empty-structure marker, a recursion
into a non-empty mapping at an incremented prefix, a recursion into a
non-empty sequence at the same prefix, or a scalar after one space. -/
def OutputProcessor.neatMapSlice (p : OutputProcessor) (pfx : String)
    (skipIndentOnFirstLine : Bool) : List (String × NeatValue) → String
  | [] => ""
  | (k, v) :: rest =>
    let indentPart := if !skipIndentOnFirstLine then pfx else ""
    let valuePart :=
      match v with
      | NeatValue.mapSlice inner =>
        if inner.length = 0 then " " ++ p.colorize "\x7b\x7d" "emptyStructures" ++ "\n"
        else "\n" ++ p.neatMapSlice (pfx ++ p.prefixAdd) false inner
      | NeatValue.slice inner =>
        if inner.length = 0 then " " ++ p.colorize "[]" "emptyStructures" ++ "\n"
        else "\n" ++ p.neatSlice pfx false inner
      | NeatValue.scalar s => " " ++ p.neatScalar pfx false s
    indentPart ++ p.keyOutput k ++ valuePart ++ p.neatMapSlice pfx false rest

/-- OutputProcessor.neatSlice (neat.go lines 176-186): per element, the
prefix, a bold dash marker, and a recursion at an incremented prefix with
skipIndentOnFirstLine set; its own skipIndentOnFirstLine parameter is never
read, as in the Go signature. -/
def OutputProcessor.neatSlice (p : OutputProcessor) (pfx : String)
    (skipIndentOnFirstLine : Bool) : List NeatValue → String
  | [] => ""
  | entry :: rest =>
    pfx ++ buntStyle "- " ++ p.neat (pfx ++ p.prefixAdd) true entry
      ++ p.neatSlice pfx skipIndentOnFirstLine rest

end

/-- Concatenation of a list of strings, used to state what a rendering loop
emits. -/
def concatAll : List String → String
  | [] => ""
  | s :: rest => s ++ concatAll rest

/-! Concrete inputs used by counterexamples and witnesses. -/

/-- The path a. -/
def pathA : YPath := YPath.mk [YPathElem.name "a"]

/-- A diff at path a with no details: its own predicate checks under
Filter ["a"] all pass. -/
def diffA : Diff := { Path := some pathA, Details := [] }

/-- A diff at path x with no details. -/
def diffX : Diff := { Path := some (YPath.mk [YPathElem.name "x"]), Details := [] }

/-- A report whose first diff fails the predicate of Filter ["a"] and whose
second diff passes it. -/
def repSticky : Report := { From := "lhs", To := "rhs", Diffs := [diffX, diffA] }

/-- The same matching diff alone in a report. -/
def repSingle : Report := { From := "lhs", To := "rhs", Diffs := [diffA] }

/-- A mapping node with one key, contributing exactly one sub-path b. -/
def nodeKV : YNode := YNode.mapping [("b", YNode.scalar "v")]

/-- A diff at path a carrying a detail whose From value contains the
sub-path b, so the concatenated path a.b is also checked. -/
def diffDeep : Diff :=
  { Path := some pathA,
    Details := [{ Kind := Kind.addition, From := some nodeKV, To := none }] }

/-- A one-diff report on which Filter ["a"] and Exclude ["a"] both drop the
diff. -/
def repDeep : Report := { From := "lhs", To := "rhs", Diffs := [diffDeep] }

/-- A diff with an absent path but a detail value with an enumerable
sub-path: filtering it dereferences a nil pointer. -/
def diffNilPath : Diff :=
  { Path := none,
    Details := [{ Kind := Kind.addition, From := some nodeKV, To := none }] }

/-- A report on which Report.filter faults. -/
def repNilPath : Report := { From := "lhs", To := "rhs", Diffs := [diffNilPath] }

/-- An output processor with the default schema, indent guides and bold
keys, as built by NewOutputProcessor in ToYAMLString. -/
def procW : OutputProcessor :=
  { colorSchema := some DefaultColorSchema, useIndentLines := true, boldKeys := true }

/-! Theorems. -/

/-- C3: for every report, calling Filter, Exclude, FilterRegexp or
ExcludeRegexp with zero arguments returns the input report unchanged, the
very same report value, hence the same From and To identifiers and the same
Diffs in the same order, not an empty report. -/
theorem zero_arguments_return_report_unchanged : ∀ r : Report,
    r.Filter [] = some r ∧ r.Exclude [] = some r ∧
    r.FilterRegexp [] = some r ∧ r.ExcludeRegexp [] = some r :=
  fun _ => ⟨rfl, rfl, rfl, rfl⟩

/-- C5: for every argument list, the predicate built by Filter or
FilterRegexp returns false on an absent (nil) path, and the predicate built
by Exclude or ExcludeRegexp returns true on an absent path. -/
theorem null_path_never_matches_filter_always_matches_exclude :
    ∀ (paths : List String) (regexps : List Regexp),
      filterMatch paths none = false ∧ excludeMatch paths none = true ∧
      filterRegexpMatch regexps none = false ∧ excludeRegexpMatch regexps none = true := by
  intro paths regexps
  have h1 : ∀ ps, pathEqCond (none : Option YPath) ps = false := by
    intro ps
    unfold pathEqCond
    cases parsePathString ps <;> rfl
  have ha : paths.any (pathEqCond none) = false := by
    induction paths with
    | nil => rfl
    | cons p rest ih => simp [List.any_cons, h1, ih]
  have hb : regexps.any (regexpCond none) = false := by
    induction regexps with
    | nil => rfl
    | cons p rest ih => simp [List.any_cons, regexpCond, ih]
  exact ⟨ha, by simp [excludeMatch, ha], hb, by simp [excludeRegexpMatch, hb]⟩

/-- C10: a report with a diff whose Path is absent but whose detail carries
a value with an enumerable sub-path makes Report.filter dereference the nil
path while concatenating sub-paths, so the filter does not run to
completion, whatever the predicate. -/
theorem filter_nil_path_with_subpaths_faults :
    diffNilPath.Path = none ∧ listPathsInNode nodeKV ≠ [] ∧
    ∀ hasPath : Option YPath → Bool, repNilPath.filter hasPath = none :=
  ⟨rfl, by decide, fun _ => rfl⟩

/-- C1: the claim fails on the code. includeDiff is initialized once before
the diff loop of Report.filter, never per diff, so a failing check on an
earlier diff permanently excludes every later diff. Here diffA (path a, no
details) passes every check of its own under Filter ["a"] and is kept when
it is the only diff, yet the same call drops it when the non-matching diffX
precedes it. -/
theorem filter_excludes_matching_diff_after_earlier_failure :
    filterMatch ["a"] diffA.Path = true ∧ diffA.Details = [] ∧
    repSingle.Filter ["a"] = some { From := "lhs", To := "rhs", Diffs := [diffA] } ∧
    repSticky.Diffs = [diffX, diffA] ∧
    repSticky.Filter ["a"] = some { From := "lhs", To := "rhs", Diffs := [] } :=
  ⟨rfl, rfl, rfl, rfl, rfl⟩

/-- C2 counterexample: on repDeep, one diff at path a whose detail value
contains the sub-path b, with the parseable non-empty path set ["a"], both
Filter and Exclude drop the diff (its own path matches only the Filter
predicate while the concatenated a.b matches only the Exclude predicate),
so the union of the two diff sequences does not reconstruct the original
diffs. -/
theorem filter_exclude_union_loses_diff :
    (parsePathString "a").isSome = true ∧
    repDeep.Filter ["a"] = some { From := "lhs", To := "rhs", Diffs := [] } ∧
    repDeep.Exclude ["a"] = some { From := "lhs", To := "rhs", Diffs := [] } ∧
    repDeep.Diffs ≠ [] :=
  ⟨rfl, rfl, rfl, by simp [repDeep]⟩

/-- C4: IgnoreValueChanges keeps the From and To identifiers and exactly
the diffs having no MODIFICATION detail, in input order. -/
theorem ignoreValueChanges_removes_exactly_modification_diffs (r : Report) :
    (r.IgnoreValueChanges).From = r.From ∧ (r.IgnoreValueChanges).To = r.To ∧
    (r.IgnoreValueChanges).Diffs
      = r.Diffs.filter (fun d => decide (∀ det ∈ d.Details, det.Kind ≠ Kind.modification)) := by
  refine ⟨rfl, rfl, ?_⟩
  show r.Diffs.filter _ = r.Diffs.filter _
  apply List.filter_congr
  intro d _
  by_cases h : ∀ det ∈ d.Details, det.Kind ≠ Kind.modification
  · have ha : d.Details.any (fun detail => detail.Kind == Kind.modification) = false := by
      rw [List.any_eq_false]
      intro det hdet
      simp [h det hdet]
    rw [ha, decide_eq_true h]
    rfl
  · push_neg at h
    obtain ⟨det, hdet, hk⟩ := h
    have ha : d.Details.any (fun detail => detail.Kind == Kind.modification) = true := by
      rw [List.any_eq_true]
      exact ⟨det, hdet, by simp [hk]⟩
    rw [ha, decide_eq_false (by push_neg; exact ⟨det, hdet, hk⟩)]
    rfl

/-- C6: a path string that fails to parse is silently dropped from the
match set: the Filter and Exclude predicates built with it agree with the
predicates built without it on every path, and the whole calls reduce to
the plain filter run over the remaining strings, surfacing no error for the
malformed argument. -/
theorem unparsable_path_silently_dropped
    (l1 l2 : List String) (s : String) (hbad : parsePathString s = none) :
    (∀ fp, filterMatch (l1 ++ s :: l2) fp = filterMatch (l1 ++ l2) fp) ∧
    (∀ fp, excludeMatch (l1 ++ s :: l2) fp = excludeMatch (l1 ++ l2) fp) ∧
    (∀ r : Report, r.Filter (l1 ++ s :: l2) = r.filter (filterMatch (l1 ++ l2)) ∧
      r.Exclude (l1 ++ s :: l2) = r.filter (excludeMatch (l1 ++ l2))) := by
  have hcond : ∀ fp, pathEqCond fp s = false := by
    intro fp
    unfold pathEqCond
    rw [hbad]
  have hf : ∀ fp, filterMatch (l1 ++ s :: l2) fp = filterMatch (l1 ++ l2) fp := by
    intro fp
    simp [filterMatch, List.any_append, List.any_cons, hcond]
  have hlen : ¬((l1 ++ s :: l2).length = 0) := by simp
  refine ⟨hf, ?_, ?_⟩
  · intro fp
    unfold excludeMatch
    have := hf fp
    unfold filterMatch at this
    rw [this]
  · intro r
    constructor
    · unfold Report.Filter
      rw [if_neg hlen]
      congr 1
      funext fp
      exact hf fp
    · unfold Report.Exclude
      rw [if_neg hlen]
      congr 1
      funext fp
      unfold excludeMatch
      have := hf fp
      unfold filterMatch at this
      rw [this]

/-- Witness for C6 at the concrete malformed string `[`. -/
theorem unparsable_path_silently_dropped_witness :
    parsePathString "[" = none ∧
    filterMatch ["a", "["] (some pathA) = filterMatch ["a"] (some pathA) :=
  ⟨rfl, (unparsable_path_silently_dropped ["a"] [] "[" rfl).1 (some pathA)⟩

/-- A pattern that fails to compile makes the whole compilation loop fail. -/
theorem compileAll_eq_none_of_mem {q : String} (hbad : compileRegexp q = none) :
    ∀ {l : List String}, q ∈ l → compileAll l = none := by
  intro l
  induction l with
  | nil => intro h; cases h
  | cons p rest ih =>
    intro hq
    unfold compileAll
    rcases List.mem_cons.mp hq with h | h
    · subst h
      rw [hbad]
    · cases hc : compileRegexp p with
      | none => rfl
      | some re => rw [ih h]

/-- C7: an argument list containing an invalid regular expression fails the
whole FilterRegexp or ExcludeRegexp call at predicate-construction time, on
every report alike, so no diff is ever examined and no partial predicate is
applied. -/
theorem invalid_regexp_fails_whole_call
    (pattern : List String) (q : String) (hq : q ∈ pattern)
    (hbad : compileRegexp q = none) :
    ∀ r : Report, r.FilterRegexp pattern = none ∧ r.ExcludeRegexp pattern = none := by
  intro r
  have hall : compileAll pattern = none := compileAll_eq_none_of_mem hbad hq
  have hlen : ¬(pattern.length = 0) := by
    cases pattern
    · cases hq
    · simp
  constructor
  · unfold Report.FilterRegexp
    rw [if_neg hlen, hall]
  · unfold Report.ExcludeRegexp
    rw [if_neg hlen, hall]

/-- Witness for C7 at the concrete invalid pattern with an unbalanced
parenthesis. -/
theorem invalid_regexp_fails_whole_call_witness :
    ("(" ∈ ["a", "("]) ∧ compileRegexp "(" = none ∧
    repSingle.FilterRegexp ["a", "("] = none ∧
    repSingle.ExcludeRegexp ["a", "("] = none :=
  ⟨by simp, rfl,
    (invalid_regexp_fails_whole_call ["a", "("] "(" (by simp) rfl repSingle).1,
    (invalid_regexp_fails_whole_call ["a", "("] "(" (by simp) rfl repSingle).2⟩

/-- The sub-path loop only ever clears the include flag: ending on true
means it started on true. -/
theorem checkSubPaths_eq_some_true (hasPath : Option YPath → Bool) (dpath : Option YPath) :
    ∀ (sps : List YPath) (inc : Bool),
      checkSubPaths hasPath dpath inc sps = some true → inc = true := by
  intro sps
  induction sps with
  | nil =>
    intro inc h
    exact Option.some.inj h
  | cons sp rest ih =>
    intro inc h
    simp only [checkSubPaths] at h
    cases dpath with
    | none => cases h
    | some p =>
      have h2 := ih _ h
      cases hp : hasPath (some (appendPath p sp)) with
      | false => rw [hp] at h2; cases h2
      | true => rw [hp] at h2; exact h2

/-- A node check only ever clears the include flag. -/
theorem checkNode_eq_some_true (hasPath : Option YPath → Bool) (dpath : Option YPath)
    (inc : Bool) (node : Option YNode)
    (h : checkNode hasPath dpath inc node = some true) : inc = true := by
  cases node with
  | none => exact Option.some.inj h
  | some n => exact checkSubPaths_eq_some_true hasPath dpath _ inc h

/-- A detail check only ever clears the include flag. -/
theorem checkDetail_eq_some_true (hasPath : Option YPath → Bool) (dpath : Option YPath)
    (inc : Bool) (d : Detail)
    (h : checkDetail hasPath dpath inc d = some true) : inc = true := by
  unfold checkDetail at h
  cases hf : checkNode hasPath dpath inc d.From with
  | none => rw [hf] at h; cases h
  | some i =>
    rw [hf] at h
    have hi := checkNode_eq_some_true hasPath dpath i d.To h
    subst hi
    exact checkNode_eq_some_true hasPath dpath inc d.From hf

/-- The details loop only ever clears the include flag. -/
theorem checkDetails_eq_some_true (hasPath : Option YPath → Bool) (dpath : Option YPath) :
    ∀ (ds : List Detail) (inc : Bool),
      checkDetails hasPath dpath inc ds = some true → inc = true := by
  intro ds
  induction ds with
  | nil =>
    intro inc h
    exact Option.some.inj h
  | cons d rest ih =>
    intro inc h
    simp only [checkDetails] at h
    cases hc : checkDetail hasPath dpath inc d with
    | none => rw [hc] at h; cases h
    | some i =>
      rw [hc] at h
      have hi := ih i h
      subst hi
      exact checkDetail_eq_some_true hasPath dpath inc d hc

/-- Every diff kept by the filter loop satisfies the predicate on its own
path: inclusion of a diff requires the include flag to be true right after
the diff's own check. -/
theorem filterDiffs_mem_hasPath (hasPath : Option YPath → Bool) :
    ∀ (l : List Diff) (inc : Bool) (out : List Diff),
      filterDiffs hasPath inc l = some out → ∀ d ∈ out, hasPath d.Path = true := by
  intro l
  induction l with
  | nil =>
    intro inc out h d hd
    have hout : ([] : List Diff) = out := Option.some.inj h
    subst hout
    cases hd
  | cons diff rest ih =>
    intro inc out h d hd
    simp only [filterDiffs] at h
    cases hc : checkDetails hasPath diff.Path (if !hasPath diff.Path then false else inc)
        diff.Details with
    | none => rw [hc] at h; cases h
    | some inc2 =>
      rw [hc] at h
      dsimp only at h
      cases hrest : filterDiffs hasPath inc2 rest with
      | none => rw [hrest] at h; cases h
      | some ds =>
        rw [hrest] at h
        have hout := Option.some.inj h
        subst hout
        cases inc2 with
        | false =>
          have hd' : d ∈ ds := by simpa using hd
          exact ih false ds hrest d hd'
        | true =>
          have hd' : d ∈ diff :: ds := by simpa using hd
          rcases List.mem_cons.mp hd' with hdd | hdd
          · subst hdd
            have h1 : (if !hasPath d.Path then false else inc) = true :=
              checkDetails_eq_some_true hasPath d.Path d.Details
                (if !hasPath d.Path then false else inc) hc
            cases hp : hasPath d.Path with
            | true => rfl
            | false =>
              rw [hp] at h1
              simp at h1
          · exact ih true ds hrest d hdd

/-- The diffs kept by the filter loop form an order-preserving subsequence
of the input diffs. -/
theorem filterDiffs_sublist (hasPath : Option YPath → Bool) :
    ∀ (l : List Diff) (inc : Bool) (out : List Diff),
      filterDiffs hasPath inc l = some out → List.Sublist out l := by
  intro l
  induction l with
  | nil =>
    intro inc out h
    have hout : ([] : List Diff) = out := Option.some.inj h
    subst hout
    exact List.Sublist.refl []
  | cons diff rest ih =>
    intro inc out h
    simp only [filterDiffs] at h
    cases hc : checkDetails hasPath diff.Path (if !hasPath diff.Path then false else inc)
        diff.Details with
    | none => rw [hc] at h; cases h
    | some inc2 =>
      rw [hc] at h
      dsimp only at h
      cases hrest : filterDiffs hasPath inc2 rest with
      | none => rw [hrest] at h; cases h
      | some ds =>
        rw [hrest] at h
        have hout := Option.some.inj h
        subst hout
        cases inc2 with
        | false => simpa using List.Sublist.cons diff (ih false ds hrest)
        | true => simpa using List.Sublist.cons₂ diff (ih true ds hrest)

/-- C2 amended: for every report and every fixed non-empty path set whose
elements all parse, whenever Filter and Exclude both run to completion
their diff sequences are disjoint and each is an order-preserving
subsequence of the original Diffs; the union of the two, however, need not
reconstruct the original (see the counterexample), because a diff whose own
path matches one predicate can still fail a sub-path check of both. -/
theorem filter_exclude_disjoint_sublists
    (r : Report) (P : List String) (hne : P ≠ [])
    (hparse : ∀ s ∈ P, (parsePathString s).isSome = true)
    (rf re : Report) (hf : r.Filter P = some rf) (he : r.Exclude P = some re) :
    (∀ d ∈ rf.Diffs, d ∉ re.Diffs) ∧
    List.Sublist rf.Diffs r.Diffs ∧ List.Sublist re.Diffs r.Diffs := by
  have hlen : ¬(P.length = 0) := by
    cases P
    · exact absurd rfl hne
    · simp
  unfold Report.Filter at hf
  unfold Report.Exclude at he
  rw [if_neg hlen] at hf he
  unfold Report.filter at hf he
  cases hfo : filterDiffs (filterMatch P) true r.Diffs with
  | none => rw [hfo] at hf; cases hf
  | some outF =>
    rw [hfo] at hf
    simp only [Option.map_some'] at hf
    cases heo : filterDiffs (excludeMatch P) true r.Diffs with
    | none => rw [heo] at he; cases he
    | some outE =>
      rw [heo] at he
      simp only [Option.map_some'] at he
      have hf' := Option.some.inj hf
      have he' := Option.some.inj he
      have hrfD : rf.Diffs = outF := by rw [← hf']
      have hreD : re.Diffs = outE := by rw [← he']
      refine ⟨?_, ?_, ?_⟩
      · intro d hdf hde
        have h1 := filterDiffs_mem_hasPath (filterMatch P) r.Diffs true outF hfo d (hrfD ▸ hdf)
        have h2 := filterDiffs_mem_hasPath (excludeMatch P) r.Diffs true outE heo d (hreD ▸ hde)
        unfold filterMatch at h1
        unfold excludeMatch at h2
        rw [h1] at h2
        cases h2
      · rw [hrfD]
        exact filterDiffs_sublist (filterMatch P) r.Diffs true outF hfo
      · rw [hreD]
        exact filterDiffs_sublist (excludeMatch P) r.Diffs true outE heo

/-- Witness for C2 amended at a concrete one-diff report and path set. -/
theorem filter_exclude_disjoint_sublists_witness :
    (["a"] ≠ ([] : List String)) ∧
    (∀ s ∈ ["a"], (parsePathString s).isSome = true) ∧
    repSingle.Filter ["a"] = some { From := "lhs", To := "rhs", Diffs := [diffA] } ∧
    repSingle.Exclude ["a"] = some { From := "lhs", To := "rhs", Diffs := [] } ∧
    ((∀ d ∈ ({ From := "lhs", To := "rhs", Diffs := [diffA] } : Report).Diffs,
        d ∉ ({ From := "lhs", To := "rhs", Diffs := [] } : Report).Diffs) ∧
      List.Sublist ({ From := "lhs", To := "rhs", Diffs := [diffA] } : Report).Diffs
        repSingle.Diffs ∧
      List.Sublist ({ From := "lhs", To := "rhs", Diffs := [] } : Report).Diffs
        repSingle.Diffs) :=
  ⟨by simp, by decide, rfl, rfl,
    filter_exclude_disjoint_sublists repSingle ["a"] (by simp) (by decide) _ _ rfl rfl⟩

/-- C8: inside neatMapSlice, a key whose value is a non-empty sequence is
rendered as the prefix (unless suppressed on a first pair), the colorized
key and colon, a newline, then the recursion into the sequence at the very
same prefix, not an incremented one, followed by the remaining pairs; this
holds whatever the elements of the sequence are. -/
theorem nonempty_sequence_value_renders_at_same_prefix
    (p : OutputProcessor) (pfx : String) (sk : Bool) (k : String)
    (items : List NeatValue) (rest : List (String × NeatValue)) (h : items ≠ []) :
    p.neatMapSlice pfx sk ((k, NeatValue.slice items) :: rest) =
      (if !sk then pfx else "") ++ p.keyOutput k ++ "\n"
        ++ p.neatSlice pfx false items ++ p.neatMapSlice pfx false rest := by
  have hlen : ¬(items.length = 0) := by
    cases items
    · exact absurd rfl h
    · simp
  conv_lhs => rw [OutputProcessor.neatMapSlice]
  rw [if_neg hlen]
  simp [String.append_assoc]

/-- Witness for C8 at a concrete processor, prefix, key and one-element
sequence. -/
theorem nonempty_sequence_value_witness :
    ([NeatValue.scalar (ScalarV.strV "x")] ≠ ([] : List NeatValue)) ∧
    procW.neatMapSlice "P" false [("k", NeatValue.slice [NeatValue.scalar (ScalarV.strV "x")])] =
      (if !false then "P" else "") ++ procW.keyOutput "k" ++ "\n"
        ++ procW.neatSlice "P" false [NeatValue.scalar (ScalarV.strV "x")]
        ++ procW.neatMapSlice "P" false [] :=
  ⟨by simp,
    nonempty_sequence_value_renders_at_same_prefix procW "P" false "k"
      [NeatValue.scalar (ScalarV.strV "x")] [] (by simp)⟩

/-- The tail loop of neatScalar emits prefix, colorized line and newline
for every line it is given. -/
theorem scalarLinesTail_eq_concatAll (p : OutputProcessor) (pfx c : String) :
    ∀ ls : List String,
      scalarLinesTail p pfx c ls
        = concatAll (ls.map (fun line => pfx ++ p.colorize line c ++ "\n")) := by
  intro ls
  induction ls with
  | nil => rfl
  | cons a t ih => simp [scalarLinesTail, concatAll, ih, String.append_assoc]

/-- C9: when the serialized, trimmed text of a non-null scalar splits into
more than one line, neatScalar colors every line with the multi-line-text
color whatever the scalar's underlying type, emits the current prefix
before every line after the first, and a newline after every line. -/
theorem multiline_scalar_colored_as_multiline_text
    (p : OutputProcessor) (pfx : String) (sk : Bool) (obj : ScalarV)
    (hnn : obj ≠ ScalarV.nullV)
    (h2 : 1 < (splitTextLines (yamlMarshal obj)).length) :
    p.neatScalar pfx sk obj =
      p.colorize ((splitTextLines (yamlMarshal obj)).headD "") "multiLineTextColor" ++ "\n"
        ++ concatAll (((splitTextLines (yamlMarshal obj)).tail).map
            (fun line => pfx ++ p.colorize line "multiLineTextColor" ++ "\n")) := by
  have key : ∀ ls : List String, 1 < ls.length →
      scalarLines p pfx "multiLineTextColor" ls =
        p.colorize (ls.headD "") "multiLineTextColor" ++ "\n"
          ++ concatAll (ls.tail.map
              (fun line => pfx ++ p.colorize line "multiLineTextColor" ++ "\n")) := by
    intro ls hls
    cases ls with
    | nil => simp at hls
    | cons a t => simp [scalarLines, scalarLinesTail_eq_concatAll]
  cases obj with
  | nullV => exact absurd rfl hnn
  | boolV b =>
    show scalarLines p pfx _ _ = _
    rw [if_pos h2]
    exact key _ h2
  | intV n =>
    show scalarLines p pfx _ _ = _
    rw [if_pos h2]
    exact key _ h2
  | floatV t =>
    show scalarLines p pfx _ _ = _
    rw [if_pos h2]
    exact key _ h2
  | strV s =>
    show scalarLines p pfx _ _ = _
    rw [if_pos h2]
    exact key _ h2

/-- Witness for C9 at a concrete two-line string scalar. -/
theorem multiline_scalar_witness :
    (ScalarV.strV "a\nb" ≠ ScalarV.nullV) ∧
    (1 < (splitTextLines (yamlMarshal (ScalarV.strV "a\nb"))).length) ∧
    procW.neatScalar "P" false (ScalarV.strV "a\nb") =
      procW.colorize ((splitTextLines (yamlMarshal (ScalarV.strV "a\nb"))).headD "")
          "multiLineTextColor" ++ "\n"
        ++ concatAll (((splitTextLines (yamlMarshal (ScalarV.strV "a\nb"))).tail).map
            (fun line => "P" ++ procW.colorize line "multiLineTextColor" ++ "\n")) :=
  ⟨by decide, by decide,
    multiline_scalar_colored_as_multiline_text procW "P" false (ScalarV.strV "a\nb")
      (by decide) (by decide)⟩

end Dyff
